import Mathlib

/-!
A verification development for the janeway terminal console overlay:
the `LogList` line buffer (lib/class/log_list.js) and the scroll and
caller-stack helpers (lib/init.js), together with the render-throttle
behaviour described in the design document.

JavaScript arrays of `LogLine` objects are modelled as Lean lists of
records; the mutable `index` field of a line becomes a functional update.
Machine numbers in this code are small array indices, so they are
modelled as `Nat` (and `Int` where a negative value can flow in).
-/

/-- One logical log entry: `index` mirrors the line's position in the
buffer, `content` its display string (what `toString` of the line object
yields), `selected` its selection flag. -/
structure LogLine where
  index : Nat
  content : String
  selected : Bool
deriving DecidableEq, Repr

/-- The `LogList` state (log_list.js constructor): `list` is the array of
lines and `boxRows` the rows of the blessed output box; `selectedLine` is
the field set by the constructor (`this.selectedLine = null`).
`listSelectedLine` models the expando property `this.list.selectedLine`
that `clearScreen` reads: no code in the repository ever assigns it, so in
every reachable state it is `none`. -/
structure LogList where
  list : List LogLine
  boxRows : List String
  selectedLine : Option LogLine
  listSelectedLine : Option LogLine
deriving DecidableEq, Repr

/-- Source `LogList#sanitize` (log_list.js 44-54): `str.toString()` is the
identity on strings, then `str.replace(/\n/g, '⏎ ')` replaces every
newline by the visible marker `U+23CE` followed by a space. -/
def sanitize (str : String) : String :=
  ⟨str.data.flatMap fun c => if c = '\n' then ['⏎', ' '] else [c]⟩

/-- Modelled from the spec: the terminal surface collaborator of spec
part 6 exposes `setLineAt(index, text)`; the box stores one string
per row, and setting a line past the end pads with empty rows. -/
def boxSetLine (i : Nat) (s : String) (rows : List String) : List String :=
  if i < rows.length then rows.set i s
  else rows ++ List.replicate (i - rows.length) "" ++ [s]

/-- Modelled from the spec: `insertLineAt(index, text)` splices a row in
at the given position; like a JS splice the start is clamped to the
current number of rows. -/
def boxInsertLine (i : Nat) (s : String) (rows : List String) : List String :=
  rows.take i ++ s :: rows.drop i

/-- Modelled from the spec: `deleteLineAt(index)` removes the row at the
given position; out of range, no row is removed. -/
def boxDeleteLine (i : Nat) (rows : List String) : List String :=
  rows.eraseIdx i

/-- Source `LogList#_setLine` (log_list.js 66-68): `box.setLine(index, sanitize(str))`. -/
def _setLine (st : LogList) (index : Nat) (str : String) : LogList :=
  { st with boxRows := boxSetLine index (sanitize str) st.boxRows }

/-- Source `LogList#_insertLine` (log_list.js 80-82): `box.insertLine(index, sanitize(str))`. -/
def _insertLine (st : LogList) (index : Nat) (str : String) : LogList :=
  { st with boxRows := boxInsertLine index (sanitize str) st.boxRows }

/-- Source `LogList#pushLine` (log_list.js 95-123): append `line` to the list,
assign `line.index = length - 1`, then write the row with `_setLine`.
With `defer = false` the write happens synchronously; with `defer = true`
it is queued with `setImmediate` and runs before the next render — the
same row is written either way, and the state after that write is
modelled.  Scroll-follow (`janeway.scrollAlong`) moves only the viewport,
which is not part of this state. -/
def pushLine (line : LogLine) (defer : Bool) (st : LogList) : LogList :=
  let newLine := { line with index := st.list.length }
  let st1 := { st with list := st.list ++ [newLine] }
  let st2 := _setLine st1 newLine.index newLine.content
  match defer with
  | true => st2
  | false => st2

/-- The bump loop of `insertAfter` (log_list.js 147-149):
`for (i = index+1; i < list.length; i++) list[i].index += 1`.  `p` is the
position of the first element of the remaining list; every element at a
position of at least `s` gets its stored index raised by one. -/
def bumpFrom (s : Nat) : Nat → List LogLine → List LogLine
  | _, [] => []
  | p, l :: rest =>
      (if s ≤ p then { l with index := l.index + 1 } else l) :: bumpFrom s (p + 1) rest

/-- Source `LogList#insertAfter` (log_list.js 136-152): `index = afterIndex + 1`;
`Bound.Array.insert(list, index, line)` performs `list.splice(index, 0,
line)` (start clamped to the length), modelled by `take ++ line :: drop`;
then `line.index = index`, the bump loop, and `_insertLine(index, line)`.
For `afterIndex > list.length` protoblast would first lengthen the array
with holes; no claim exercises that range, and the model is exact for
every `afterIndex ≤ list.length`. -/
def insertAfter (line : LogLine) (afterIndex : Nat) (st : LogList) : LogList :=
  let index := afterIndex + 1
  let inserted := { line with index := index }
  let lst := st.list.take index ++ inserted :: st.list.drop index
  let st1 := { st with list := bumpFrom (index + 1) 0 lst }
  _insertLine st1 index line.content

/-- The loop of `reIndex` (log_list.js 172-174): every position from
`start` onward gets `list[i].index = i`. -/
def reIndexFrom (s : Nat) : Nat → List LogLine → List LogLine
  | _, [] => []
  | p, l :: rest =>
      (if s ≤ p then { l with index := p } else l) :: reIndexFrom s (p + 1) rest

/-- Source `LogList#reIndex` (log_list.js 164-175); `start` is `none` when the
caller passes no number, and the guard `typeof start !== 'number'` then
resets it to 0. -/
def reIndex (start : Option Nat) (st : LogList) : LogList :=
  let s := match start with | some n => n | none => 0
  { st with list := reIndexFrom s 0 st.list }

/-- The deletion loop of `clearLines` (log_list.js 229-238): for each
index in order, `box.deleteLine(index)` then `list.splice(index, 1)`. -/
def deleteLinesLoop (idxs : List Nat) (st : LogList) : LogList :=
  idxs.foldl (fun acc index =>
    { acc with boxRows := boxDeleteLine index acc.boxRows,
               list := acc.list.eraseIdx index }) st

/-- Source `LogList#clearLines` (log_list.js 214-242): sort the indices
ascending (`Array.flashsort`, the numeric sort of the protoblast
dependency, modelled by an ascending insertion sort), read the minimum
(`indices[0]`, undefined for an empty array), reverse, delete every index
from the box and the list, then `reIndex(min)`. -/
def clearLines (indices : List Nat) (st : LogList) : LogList :=
  let sorted := indices.insertionSort (· ≤ ·)
  let min := sorted.head?
  let st1 := deleteLinesLoop sorted.reverse st
  reIndex min st1

/-- Source `LogList#removeLine` (log_list.js 187-202): if `list[indexToRemove]`
exists, clear the indices of the line and all of its children, then
render.  `line.getAllIndices()` lives in lib/class/log_line.js, which is
not under src/; modelled from the spec: the subtree traversal yields the
set of absolute indices of the line and its descendants, taken here as
the parameter `subtreeIndices`.  `render()` only schedules a redraw. -/
def removeLine (indexToRemove : Nat) (subtreeIndices : List Nat) (st : LogList) : LogList :=
  match st.list[indexToRemove]? with
  | some _ => clearLines subtreeIndices st
  | none => st

/-- Modelled from the spec: `LogLine#unselect` (lib/class/log_line.js,
not under src/) clears the line's `selected` flag. -/
def unselectLine (l : LogLine) : LogLine := { l with selected := false }

/-- Source `LogList#clearScreen` (log_list.js 253-269): the guard reads
`this.list.selectedLine` — a property of the plain `list` array that
nothing in the repository ever assigns; the constructor sets
`this.selectedLine` on the LogList itself, a different object — then
empties the list (`list.length = 0`) and clears the box
(`setContent('')`).  `render()` only schedules a redraw. -/
def clearScreen (st : LogList) : LogList :=
  let st1 :=
    match st.listSelectedLine with
    | some l => { st with listSelectedLine := some (unselectLine l) }
    | none => st
  { st1 with list := [], boxRows := [] }

/-- Position check underlying the index invariant: every line from
position `p` on stores `index = position`. -/
def indexedFrom : Nat → List LogLine → Bool
  | _, [] => true
  | p, l :: rest => l.index == p && indexedFrom (p + 1) rest

/-- The index invariant of the spec: `list[i].index == i` for every `i`
in `[0, length)`. -/
def WF (st : LogList) : Prop := indexedFrom 0 st.list = true

instance (st : LogList) : Decidable (WF st) :=
  inferInstanceAs (Decidable (_ = _))

/-- The documented structural mutations of the buffer. -/
inductive Mutation where
  | pushL (line : LogLine) (defer : Bool)
  | insertA (line : LogLine) (afterIndex : Nat)
  | removeL (indexToRemove : Nat) (subtreeIndices : List Nat)
  | clearL (indices : List Nat)
  | clearScr
  | reIdx (start : Option Nat)

/-- Dispatch of a documented mutation to the modelled operation. -/
def applyMutation : Mutation → LogList → LogList
  | .pushL l d, st => pushLine l d st
  | .insertA l k, st => insertAfter l k st
  | .removeL i ids, st => removeLine i ids st
  | .clearL ids, st => clearLines ids st
  | .clearScr, st => clearScreen st
  | .reIdx s, st => reIndex s st

/-- Validity side condition: the spec promises the invariant for
`insertAfter` only when called with a currently existing index. -/
def validMutation : Mutation → LogList → Prop
  | .insertA _ k, st => k < st.list.length
  | _, _ => True

/-- Modelled from the spec: the scrollable output box collaborator of
spec part 6 (`scrollBy(n)` / `getScrollPercent()`).  `pos` is the index of
the first visible line (blessed's `childBase`), `maxScroll` the largest
reachable position; a scroll clamps the position into `[0, maxScroll]`. -/
structure ScrollBox where
  pos : Nat
  maxScroll : Nat
deriving DecidableEq, Repr

/-- Modelled from the spec: `scrollBy(n)` moves the viewport by `n` lines,
clamped to the scrollable range. -/
def boxScroll (d : Int) (b : ScrollBox) : ScrollBox :=
  { b with pos := (min (max ((b.pos : Int) + d) 0) (b.maxScroll : Int)).toNat }

/-- Modelled from the spec: `getScrollPercent()` is the position as a
percentage of the scrollable range, 0 when the content fits. -/
def getScrollPerc (b : ScrollBox) : ℚ :=
  if b.maxScroll = 0 then 0 else (b.pos : ℚ) * 100 / (b.maxScroll : ℚ)

/-- Source `Janeway#scroll` (init.js 438-455): default the direction to 1 when
`null`, read the percentage, scroll, read it again, and issue the
opposite scroll when both readings are 0 ("Undo scroll if nothing
changed"). -/
def scroll (direction : Option Int) (b : ScrollBox) : ScrollBox :=
  let d : Int := match direction with | some v => v | none => 1
  let before := getScrollPerc b
  let b1 := boxScroll d b
  let after := getScrollPerc b1
  if before = 0 ∧ after = 0 then boxScroll (0 - d) b1 else b1

/-- Modelled from the spec: the throttle combinator wrapping `render`
(log_list.js 305-308 uses `F.throttle(fn, 70)` from the protoblast
dependency, which is not under src/).  Per spec sections 4.3 and 5:
requests inside the window coalesce; a request arriving mid-window slides
the trailing edge forward; the redraw fires at the trailing edge with the
latest state.  Discrete time: the calls are `(timestamp, state)` pairs in
arrival order, `pending` is the scheduled `(deadline, state)` redraw, and
the returned list contains the redraws that actually fire. -/
def runThrottle {σ : Type} (W : Nat) : List (Nat × σ) → Option (Nat × σ) → List (Nat × σ)
  | [], pending => match pending with | none => [] | some p => [p]
  | (t, s) :: rest, none => runThrottle W rest (some (t + W, s))
  | (t, s) :: rest, some (d, old) =>
      if d ≤ t then (d, old) :: runThrottle W rest (some (t + W, s))
      else runThrottle W rest (some (t + W, s))

/-- The structured record produced by `extractLineInfo` (init.js
200-206). -/
structure LineInfo where
  name : String
  path : String
  file : String
  line : String
  char : String
deriving DecidableEq, Repr

/-- First position where the substring `"at "` occurs
(`caller_line.indexOf('at ')`, init.js 182). -/
def findAtIdx : List Char → Option Nat
  | [] => none
  | c :: cs =>
      if ['a', 't', ' '].isPrefixOf (c :: cs) then some 0
      else (findAtIdx cs).map (· + 1)

/-- Source `caller_line.slice(index + 2)` (init.js 185): with `'at '` found at
`k` this keeps everything from the space after `at`; when it is absent,
`indexOf` returns -1 and `slice(1)` drops the first character. -/
def cleanLine (s : List Char) : List Char :=
  match findAtIdx s with
  | some k => s.drop (k + 2)
  | none => s.drop 1

/-- The suffix `:(\d*):(\d*)\)` of the strict pattern, anchored at the
current position: a colon, a run of digits, a colon, a run of digits and
a closing parenthesis.  The digit runs are maximal, which agrees with the
greedy `\d*`: any shorter run would leave a digit where the literal colon
or parenthesis is required. -/
def tryColonStrict (l : List Char) : Option (List Char × List Char) :=
  match l with
  | ':' :: r =>
      let d1 := r.takeWhile Char.isDigit
      (match r.dropWhile Char.isDigit with
       | ':' :: r2 =>
           let d2 := r2.takeWhile Char.isDigit
           (match r2.dropWhile Char.isDigit with
            | ')' :: _ => some (d1, d2)
            | _ => none)
       | _ => none)
  | _ => none

/-- The lazy group `(.*?)` before `tryColonStrict`: the shortest prefix of
non-newline characters after which the suffix pattern matches (`.` does
not match a newline). -/
def matchInner : List Char → Option (List Char × List Char × List Char)
  | [] => none
  | c :: cs =>
      match tryColonStrict (c :: cs) with
      | some (d1, d2) => some ([], d1, d2)
      | none =>
          if c = '\n' then none
          else (matchInner cs).map fun r => (c :: r.1, r.2)

/-- The literal ` \(` between the two lazy groups of the strict pattern. -/
def tryParenInner (l : List Char) : Option (List Char × List Char × List Char) :=
  match l with
  | ' ' :: '(' :: r => matchInner r
  | _ => none

/-- The part `(.*?) \((.*?):(\d*):(\d*)\)` of the strict pattern after
its leading space: the first lazy group grows one non-newline character
at a time until the rest of the pattern matches. -/
def strictAfterSpace : List Char → Option (List Char × List Char × List Char × List Char)
  | [] => none
  | c :: cs =>
      match tryParenInner (c :: cs) with
      | some (g2, d1, d2) => some ([], g2, d1, d2)
      | none =>
          if c = '\n' then none
          else (strictAfterSpace cs).map fun r => (c :: r.1, r.2)

/-- The strict pattern `/^ (.*?) \((.*?):(\d*):(\d*)\)/` of init.js 187,
returning the four capture groups. -/
def matchStrict (l : List Char) : Option (List Char × List Char × List Char × List Char) :=
  match l with
  | ' ' :: rest => strictAfterSpace rest
  | _ => none

/-- The suffix `:(\d*):(\d*)` of the loose pattern: as `tryColonStrict`
but with no closing parenthesis, and the trailing digit run may be
empty. -/
def tryColonLoose (l : List Char) : Option (List Char × List Char) :=
  match l with
  | ':' :: r =>
      let d1 := r.takeWhile Char.isDigit
      (match r.dropWhile Char.isDigit with
       | ':' :: r2 => some (d1, r2.takeWhile Char.isDigit)
       | _ => none)
  | _ => none

/-- One attempt of the loose pattern at a fixed start position: the lazy
leading group grows over non-newline characters until the colon suffix
matches. -/
def looseHere : List Char → Option (List Char × List Char × List Char)
  | [] => none
  | c :: cs =>
      match tryColonLoose (c :: cs) with
      | some (d1, d2) => some ([], d1, d2)
      | none =>
          if c = '\n' then none
          else (looseHere cs).map fun r => (c :: r.1, r.2)

/-- The loose pattern `/(.*?):(\d*):(\d*)/` of init.js 191.  It is not
anchored, so like `RegExp.exec` the start position advances by one
character until an attempt succeeds. -/
def matchLoose : List Char → Option (List Char × List Char × List Char)
  | [] => none
  | c :: cs =>
      match looseHere (c :: cs) with
      | some r => some r
      | none => matchLoose cs

/-- Splitting `path.split('/')` at the character level: split on every `'/'`,
keeping empty pieces, never yielding an empty list of pieces. -/
def splitOnSlash : List Char → List (List Char)
  | [] => [[]]
  | '/' :: rest => [] :: splitOnSlash rest
  | c :: rest =>
      match splitOnSlash rest with
      | [] => [[c]]
      | h :: t => (c :: h) :: t

/-- Source `path.split('/').pop()` (init.js 203); `split` always yields at least
one piece, so `pop` is the last one. -/
def jsSplitPop (path : String) : String :=
  match (splitOnSlash path.data).getLast? with
  | some x => ⟨x⟩
  | none => path

/-- Source `Janeway#extractLineInfo` (init.js 174-207): strip everything up to
`'at '`, try the strict pattern; on failure try the loose pattern with
the name forced to `anonymous`; on failure again fall back to the
placeholder array `['unknown', 'unknown', 'unknown', 'unknown']`, which
yields `anonymous`/`unknown` fields.  Total: no input raises. -/
def extractLineInfo (caller_line : String) : LineInfo :=
  let clean := cleanLine caller_line.data
  match matchStrict clean with
  | some (g1, g2, d1, d2) =>
      { name := ⟨g1⟩, path := ⟨g2⟩, file := jsSplitPop ⟨g2⟩, line := ⟨d1⟩, char := ⟨d2⟩ }
  | none =>
      match matchLoose clean with
      | some (g, d1, d2) =>
          { name := "anonymous", path := ⟨g⟩, file := jsSplitPop ⟨g⟩,
            line := ⟨d1⟩, char := ⟨d2⟩ }
      | none =>
          { name := "anonymous", path := "unknown", file := "unknown",
            line := "unknown", char := "unknown" }

/-- The survivors of a bulk deletion: the elements whose position is not
in `bad`, `p` being the position of the first remaining element. -/
def survivorsFrom {α : Type} (bad : List Nat) : Nat → List α → List α
  | _, [] => []
  | p, x :: xs =>
      if p ∈ bad then survivorsFrom bad (p + 1) xs
      else x :: survivorsFrom bad (p + 1) xs

section Sanity

example : sanitize "a\nb" = "a⏎ b" := by decide

example : sanitize "abc" = "abc" := by decide

example :
    (insertAfter ⟨0, "X", false⟩ 0
      ⟨[⟨0, "A", false⟩], ["A"], none, none⟩).list
      = [⟨0, "A", false⟩, ⟨1, "X", false⟩] := by decide

example :
    (clearLines [1]
      ⟨[⟨0, "A", false⟩, ⟨1, "B", false⟩, ⟨2, "C", false⟩], ["A", "B", "C"], none, none⟩).list
      = [⟨0, "A", false⟩, ⟨1, "C", false⟩] := by decide

example :
    (clearLines [1]
      ⟨[⟨0, "A", false⟩, ⟨1, "B", false⟩, ⟨2, "C", false⟩], ["A", "B", "C"], none, none⟩).boxRows
      = ["A", "C"] := by decide

example :
    extractLineInfo "    at foo (/app/lib/x.js:10:5)"
      = { name := "foo", path := "/app/lib/x.js", file := "x.js",
          line := "10", char := "5" } := by decide

example :
    extractLineInfo "    at /app/lib/x.js:10:5"
      = { name := "anonymous", path := " /app/lib/x.js", file := "x.js",
          line := "10", char := "5" } := by decide

example :
    extractLineInfo "garbage"
      = { name := "anonymous", path := "unknown", file := "unknown",
          line := "unknown", char := "unknown" } := by decide

example :
    extractLineInfo "    at f  (x:1:2)"
      = { name := "f ", path := "x", file := "x", line := "1", char := "2" } := by decide

example :
    extractLineInfo "  at f (a:(1:2))"
      = { name := "anonymous", path := "unknown", file := "unknown",
          line := "unknown", char := "unknown" } := by decide

example : scroll (some (-2)) ⟨0, 5⟩ = ⟨2, 5⟩ := by
  norm_num [scroll, getScrollPerc, boxScroll]
  rfl

example : scroll (some 1) ⟨5, 5⟩ = ⟨5, 5⟩ := by
  norm_num [scroll, getScrollPerc, boxScroll]
  rfl

example : scroll (some 2) ⟨1, 5⟩ = ⟨3, 5⟩ := by
  norm_num [scroll, getScrollPerc, boxScroll]
  rfl

example :
    runThrottle 70 [(0, "a"), (10, "b"), (69, "c")] none = [(139, "c")] := by decide

example :
    runThrottle 70 [(0, "a"), (100, "b")] none = [(70, "a"), (170, "b")] := by decide

end Sanity

theorem length_bumpFrom (s : Nat) :
    ∀ (p : Nat) (ls : List LogLine), (bumpFrom s p ls).length = ls.length
  | _, [] => rfl
  | p, _ :: rest => by simp [bumpFrom, length_bumpFrom s (p + 1) rest]

theorem length_reIndexFrom (s : Nat) :
    ∀ (p : Nat) (ls : List LogLine), (reIndexFrom s p ls).length = ls.length
  | _, [] => rfl
  | p, _ :: rest => by simp [reIndexFrom, length_reIndexFrom s (p + 1) rest]

theorem getElem?_bumpFrom (s : Nat) :
    ∀ (p j : Nat) (ls : List LogLine),
      (bumpFrom s p ls)[j]?
        = ls[j]?.map (fun l => if s ≤ p + j then { l with index := l.index + 1 } else l)
  | _, _, [] => by simp [bumpFrom]
  | p, 0, l :: rest => by simp [bumpFrom]
  | p, j + 1, l :: rest => by
      have h : p + 1 + j = p + (j + 1) := by omega
      simp [bumpFrom, getElem?_bumpFrom s (p + 1) j rest, h]

theorem getElem?_reIndexFrom (s : Nat) :
    ∀ (p j : Nat) (ls : List LogLine),
      (reIndexFrom s p ls)[j]?
        = ls[j]?.map (fun l => if s ≤ p + j then { l with index := p + j } else l)
  | _, _, [] => by simp [reIndexFrom]
  | p, 0, l :: rest => by simp [reIndexFrom]
  | p, j + 1, l :: rest => by
      have h : p + 1 + j = p + (j + 1) := by omega
      simp [reIndexFrom, getElem?_reIndexFrom s (p + 1) j rest, h]

theorem indexedFrom_iff :
    ∀ (p : Nat) (ls : List LogLine),
      indexedFrom p ls = true ↔ ∀ (j : Nat) (l : LogLine), ls[j]? = some l → l.index = p + j
  | p, [] => by simp [indexedFrom]
  | p, l :: rest => by
      rw [indexedFrom, Bool.and_eq_true, beq_iff_eq, indexedFrom_iff (p + 1) rest]
      constructor
      · rintro ⟨h0, hrest⟩ j x hx
        match j with
        | 0 =>
            simp only [List.getElem?_cons_zero, Option.some.injEq] at hx
            subst hx; omega
        | j + 1 =>
            simp only [List.getElem?_cons_succ] at hx
            have := hrest j x hx
            omega
      · intro h
        refine ⟨by simpa using h 0 l (by simp), fun j x hx => ?_⟩
        have := h (j + 1) x (by simpa using hx)
        omega

theorem wf_iff (st : LogList) :
    WF st ↔ ∀ (j : Nat) (l : LogLine), st.list[j]? = some l → l.index = j := by
  rw [WF, indexedFrom_iff]
  constructor
  · intro h j l hl; simpa using h j l hl
  · intro h j l hl; simpa using h j l hl

theorem pushLine_list (line : LogLine) (defer : Bool) (st : LogList) :
    (pushLine line defer st).list = st.list ++ [{ line with index := st.list.length }] := by
  cases defer <;> rfl

theorem pushLine_wf (line : LogLine) (defer : Bool) (st : LogList) (h : WF st) :
    WF (pushLine line defer st) := by
  rw [wf_iff] at h ⊢
  intro j l hl
  rw [pushLine_list] at hl
  rcases Nat.lt_or_ge j st.list.length with hj | hj
  · rw [List.getElem?_append_left hj] at hl
    exact h j l hl
  · rw [List.getElem?_append_right hj] at hl
    match hd : j - st.list.length with
    | 0 =>
        rw [hd] at hl
        simp only [List.getElem?_cons_zero, Option.some.injEq] at hl
        subst hl
        show st.list.length = j
        omega
    | n + 1 =>
        rw [hd] at hl
        simp at hl

theorem insertAfter_list (line : LogLine) (k : Nat) (st : LogList) :
    (insertAfter line k st).list
      = bumpFrom (k + 2) 0
          (st.list.take (k + 1) ++ { line with index := k + 1 } :: st.list.drop (k + 1)) := rfl

theorem insertAfter_boxRows (line : LogLine) (k : Nat) (st : LogList) :
    (insertAfter line k st).boxRows
      = boxInsertLine (k + 1) (sanitize line.content) st.boxRows := rfl

theorem insertAfter_getElem? (line : LogLine) (k : Nat) (st : LogList)
    (hk : k < st.list.length) (j : Nat) :
    (insertAfter line k st).list[j]?
      = if j < k + 1 then st.list[j]?
        else if j = k + 1 then some { line with index := k + 1 }
        else st.list[j - 1]?.map (fun l => { l with index := l.index + 1 }) := by
  have hlt : (st.list.take (k + 1)).length = k + 1 := by
    rw [List.length_take]; omega
  rw [insertAfter_list, getElem?_bumpFrom]
  rcases Nat.lt_or_ge j (k + 1) with hj | hj
  · rw [if_pos hj, List.getElem?_append_left (by omega), List.getElem?_take_of_lt hj]
    have h4 : ¬ (k + 2 ≤ j) := by omega
    simp [h4]
  · rw [if_neg (by omega), List.getElem?_append_right (by omega), hlt]
    rcases Nat.eq_or_lt_of_le hj with hj1 | hj1
    · rw [if_pos hj1.symm]
      have h5 : j - (k + 1) = 0 := by omega
      rw [h5]
      have h4 : ¬ (k + 2 ≤ j) := by omega
      simp [h4]
    · rw [if_neg (by omega)]
      have h1 : j - (k + 1) = (j - (k + 1) - 1) + 1 := by omega
      rw [h1]
      simp only [List.getElem?_cons_succ, List.getElem?_drop]
      have h2 : k + 1 + (j - (k + 1) - 1) = j - 1 := by omega
      have h3 : k + 2 ≤ j := by omega
      rw [h2]
      simp [h3]

theorem insertAfter_length (line : LogLine) (k : Nat) (st : LogList)
    (hk : k < st.list.length) :
    (insertAfter line k st).list.length = st.list.length + 1 := by
  rw [insertAfter_list, length_bumpFrom]
  simp only [List.length_append, List.length_cons, List.length_take, List.length_drop]
  omega

theorem insertAfter_wf (line : LogLine) (k : Nat) (st : LogList)
    (hk : k < st.list.length) (hwf : WF st) : WF (insertAfter line k st) := by
  rw [wf_iff] at hwf ⊢
  intro j l hl
  rw [insertAfter_getElem? line k st hk j] at hl
  rcases Nat.lt_or_ge j (k + 1) with hj | hj
  · rw [if_pos hj] at hl
    exact hwf j l hl
  · rcases Nat.eq_or_lt_of_le hj with hj1 | hj1
    · rw [if_neg (by omega), if_pos hj1.symm] at hl
      simp only [Option.some.injEq] at hl
      subst hl
      show k + 1 = j
      omega
    · rw [if_neg (by omega), if_neg (by omega)] at hl
      rcases hx : st.list[j - 1]? with _ | x
      · simp [hx] at hl
      · rw [hx] at hl
        simp only [Option.map_some', Option.some.injEq] at hl
        subst hl
        have := hwf (j - 1) x hx
        show x.index + 1 = j
        omega

theorem deleteLinesLoop_eq :
    ∀ (ds : List Nat) (st : LogList),
      deleteLinesLoop ds st
        = { st with list := ds.foldl List.eraseIdx st.list,
                    boxRows := ds.foldl List.eraseIdx st.boxRows }
  | [], st => rfl
  | d :: ds, st => by
      simp only [deleteLinesLoop, List.foldl_cons]
      exact deleteLinesLoop_eq ds _

theorem getElem?_foldl_eraseIdx {α : Type} (m : Nat) :
    ∀ (ds : List Nat) (xs : List α), (∀ e ∈ ds, m ≤ e) → ∀ j, j < m →
      (ds.foldl List.eraseIdx xs)[j]? = xs[j]?
  | [], _, _, _, _ => rfl
  | d :: ds, xs, h, j, hj => by
      simp only [List.foldl_cons]
      rw [getElem?_foldl_eraseIdx m ds _ (fun e he => h e (List.mem_cons_of_mem d he)) j hj]
      exact List.getElem?_eraseIdx_of_lt xs d j
        (lt_of_lt_of_le hj (h d (List.mem_cons_self d ds)))

theorem wf_reIndexFrom (s : Nat) (ls : List LogLine)
    (h : ∀ (j : Nat) (l : LogLine), ls[j]? = some l → j < s → l.index = j) :
    ∀ (j : Nat) (l : LogLine), (reIndexFrom s 0 ls)[j]? = some l → l.index = j := by
  intro j l hl
  rw [getElem?_reIndexFrom] at hl
  rcases hx : ls[j]? with _ | x
  · simp [hx] at hl
  · rw [hx] at hl
    simp only [Option.map_some', Option.some.injEq] at hl
    rcases Nat.lt_or_ge j s with hj | hj
    · rw [if_neg (by omega)] at hl
      subst hl
      exact h j x hx hj
    · rw [if_pos (by omega)] at hl
      subst hl
      show 0 + j = j
      omega

theorem sorted_head_le (m : Nat) (t : List Nat)
    (h : List.Sorted (· ≤ ·) (m :: t)) : ∀ e ∈ m :: t, m ≤ e := by
  intro e he
  rcases List.mem_cons.mp he with rfl | he
  · exact Nat.le_refl e
  · exact List.rel_of_sorted_cons h e he

theorem clearLines_eq (indices : List Nat) (st : LogList) :
    clearLines indices st
      = reIndex (indices.insertionSort (· ≤ ·)).head?
          (deleteLinesLoop (indices.insertionSort (· ≤ ·)).reverse st) := rfl

theorem reIndex_some_list (m : Nat) (st : LogList) :
    (reIndex (some m) st).list = reIndexFrom m 0 st.list := rfl

theorem reIndex_none_list (st : LogList) :
    (reIndex none st).list = reIndexFrom 0 0 st.list := rfl

theorem reIndex_boxRows (start : Option Nat) (st : LogList) :
    (reIndex start st).boxRows = st.boxRows := rfl

theorem clearLines_wf (idxs : List Nat) (st : LogList) (h : WF st) :
    WF (clearLines idxs st) := by
  have hsorted := List.sorted_insertionSort (· ≤ ·) idxs
  rw [wf_iff] at h
  rw [WF, clearLines_eq, indexedFrom_iff]
  rcases hs : idxs.insertionSort (· ≤ ·) with _ | ⟨m, t⟩
  · rw [List.head?_nil]
    intro j l hl
    rw [reIndex_none_list] at hl
    have := wf_reIndexFrom 0 _ (fun j l _ hj => absurd hj (by omega)) j l hl
    omega
  · rw [hs] at hsorted
    have hmin : ∀ e ∈ (m :: t).reverse, m ≤ e := by
      intro e he
      exact sorted_head_le m t hsorted e (List.mem_reverse.mp he)
    rw [List.head?_cons]
    intro j l hl
    rw [reIndex_some_list] at hl
    have key : ∀ (j : Nat) (l : LogLine),
        (deleteLinesLoop (m :: t).reverse st).list[j]? = some l → j < m → l.index = j := by
      intro j l hjl hj
      rw [deleteLinesLoop_eq] at hjl
      simp only at hjl
      rw [getElem?_foldl_eraseIdx m _ st.list hmin j hj] at hjl
      exact h j l hjl
    have := wf_reIndexFrom m _ key j l hl
    omega

theorem reIndexFrom_of_indexed (s : Nat) :
    ∀ (p : Nat) (ls : List LogLine), indexedFrom p ls = true → reIndexFrom s p ls = ls
  | _, [], _ => rfl
  | p, l :: rest, h => by
      rw [indexedFrom, Bool.and_eq_true, beq_iff_eq] at h
      rw [reIndexFrom, reIndexFrom_of_indexed s (p + 1) rest h.2]
      rcases le_or_lt s p with hs | hs
      · rw [if_pos hs]
        cases l with
        | mk i c sel =>
            have : i = p := h.1
            subst this
            rfl
      · rw [if_neg (by omega)]

theorem reIndex_wf (start : Option Nat) (st : LogList) (h : WF st) :
    WF (reIndex start st) := by
  rw [wf_iff] at h ⊢
  intro j l hl
  cases start with
  | none =>
      rw [reIndex_none_list] at hl
      exact wf_reIndexFrom _ st.list (fun j l hjl _ => h j l hjl) j l hl
  | some m =>
      rw [reIndex_some_list] at hl
      exact wf_reIndexFrom _ st.list (fun j l hjl _ => h j l hjl) j l hl

theorem clearScreen_wf (st : LogList) : WF (clearScreen st) := by
  rw [wf_iff]
  intro j l hl
  rcases hx : st.listSelectedLine with _ | x <;> simp [clearScreen, hx] at hl

theorem removeLine_wf (i : Nat) (ids : List Nat) (st : LogList) (h : WF st) :
    WF (removeLine i ids st) := by
  rw [removeLine]
  rcases hx : st.list[i]? with _ | x
  · exact h
  · exact clearLines_wf ids st h

theorem clearLines_nil (st : LogList) (h : WF st) : clearLines [] st = st := by
  show reIndex none st = st
  show { st with list := reIndexFrom 0 0 st.list } = st
  rw [reIndexFrom_of_indexed 0 0 st.list h]

theorem length_boxInsertLine (i : Nat) (s : String) (rows : List String)
    (h : i ≤ rows.length) : (boxInsertLine i s rows).length = rows.length + 1 := by
  simp only [boxInsertLine, List.length_append, List.length_cons, List.length_take,
    List.length_drop]
  omega

theorem getElem?_boxInsertLine_self (i : Nat) (s : String) (rows : List String)
    (h : i ≤ rows.length) : (boxInsertLine i s rows)[i]? = some s := by
  rw [boxInsertLine, List.getElem?_append_right (by rw [List.length_take]; omega)]
  rw [List.length_take]
  have h0 : i - min i rows.length = 0 := by omega
  rw [h0, List.getElem?_cons_zero]

theorem survivorsFrom_of_all_lt {α : Type} (bad : List Nat) :
    ∀ (p : Nat) (xs : List α), (∀ e ∈ bad, e < p) → survivorsFrom bad p xs = xs
  | _, [], _ => rfl
  | p, x :: xs, h => by
      rw [survivorsFrom, if_neg (fun hc => absurd (h p hc) (by omega)),
        survivorsFrom_of_all_lt bad (p + 1) xs (fun e he => by have := h e he; omega)]

theorem eraseIdx_survivorsFrom {α : Type} (d : Nat) (ds : List Nat)
    (hds : ∀ e ∈ ds, e < d) :
    ∀ (xs : List α) (p : Nat), p ≤ d → d - p < xs.length →
      survivorsFrom ds p (xs.eraseIdx (d - p)) = survivorsFrom (d :: ds) p xs
  | [], p, _, hlen => by simp at hlen
  | x :: xs, p, hpd, hlen => by
      rcases Nat.eq_or_lt_of_le hpd with heq | hlt
      · subst heq
        have h0 : p - p = 0 := by omega
        rw [h0, List.eraseIdx_zero, List.tail_cons, survivorsFrom,
          if_pos (List.mem_cons_self p ds),
          survivorsFrom_of_all_lt ds p xs hds,
          survivorsFrom_of_all_lt (p :: ds) (p + 1) xs]
        intro e he
        rcases List.mem_cons.mp he with rfl | he
        · omega
        · have := hds e he; omega
      · have h1 : d - p = (d - (p + 1)) + 1 := by omega
        rw [h1, List.eraseIdx_cons_succ, survivorsFrom, survivorsFrom]
        have hmem : (p ∈ d :: ds) ↔ (p ∈ ds) := by
          constructor
          · intro hc
            rcases List.mem_cons.mp hc with rfl | hc
            · omega
            · exact hc
          · exact fun hc => List.mem_cons_of_mem d hc
        have hrec := eraseIdx_survivorsFrom d ds hds xs (p + 1) (by omega) (by
          simp only [List.length_cons] at hlen; omega)
        rw [hrec]
        by_cases hp : p ∈ ds
        · rw [if_pos hp, if_pos (hmem.mpr hp)]
        · rw [if_neg hp, if_neg (fun hc => hp (hmem.mp hc))]

theorem foldl_eraseIdx_survivors {α : Type} :
    ∀ (ds : List Nat) (xs : List α), List.Pairwise (· > ·) ds →
      (∀ d ∈ ds, d < xs.length) →
      ds.foldl List.eraseIdx xs = survivorsFrom ds 0 xs
  | [], xs, _, _ => (survivorsFrom_of_all_lt [] 0 xs (by simp)).symm
  | d :: ds, xs, hpw, hb => by
      have hhead : ∀ e ∈ ds, e < d := fun e he => (List.pairwise_cons.mp hpw).1 e he
      have hdlen : d < xs.length := hb d (List.mem_cons_self d ds)
      simp only [List.foldl_cons]
      rw [foldl_eraseIdx_survivors ds (xs.eraseIdx d) (List.pairwise_cons.mp hpw).2
        (fun e he => by
          rw [List.length_eraseIdx_of_lt hdlen]
          have := hhead e he; omega)]
      have := eraseIdx_survivorsFrom d ds hhead xs 0 (by omega) (by simpa using hdlen)
      simpa using this

theorem length_foldl_eraseIdx {α : Type} :
    ∀ (ds : List Nat) (xs : List α), List.Pairwise (· > ·) ds →
      (∀ d ∈ ds, d < xs.length) →
      (ds.foldl List.eraseIdx xs).length = xs.length - ds.length
  | [], xs, _, _ => by simp
  | d :: ds, xs, hpw, hb => by
      have hhead : ∀ e ∈ ds, e < d := fun e he => (List.pairwise_cons.mp hpw).1 e he
      have hdlen : d < xs.length := hb d (List.mem_cons_self d ds)
      simp only [List.foldl_cons, List.length_cons]
      rw [length_foldl_eraseIdx ds (xs.eraseIdx d) (List.pairwise_cons.mp hpw).2
        (fun e he => by
          rw [List.length_eraseIdx_of_lt hdlen]
          have := hhead e he; omega)]
      rw [List.length_eraseIdx_of_lt hdlen]
      omega

theorem survivorsFrom_enumFrom {α : Type} (bad : List Nat) :
    ∀ (p : Nat) (xs : List α),
      survivorsFrom bad p xs
        = ((xs.enumFrom p).filter fun q => decide (q.1 ∉ bad)).map Prod.snd
  | _, [] => rfl
  | p, x :: xs => by
      by_cases hp : p ∈ bad
      · simp [survivorsFrom, hp, survivorsFrom_enumFrom bad (p + 1) xs]
      · simp [survivorsFrom, hp, survivorsFrom_enumFrom bad (p + 1) xs]

theorem map_content_reIndexFrom (s : Nat) :
    ∀ (p : Nat) (ls : List LogLine),
      (reIndexFrom s p ls).map (fun l => l.content) = ls.map (fun l => l.content)
  | _, [] => rfl
  | p, l :: rest => by
      rw [reIndexFrom]
      rcases le_or_lt s p with h | h
      · rw [if_pos h]
        simp only [List.map_cons]
        rw [map_content_reIndexFrom s (p + 1) rest]
      · rw [if_neg (Nat.not_le.mpr h)]
        simp only [List.map_cons]
        rw [map_content_reIndexFrom s (p + 1) rest]

theorem length_le_of_nodup_bounded (idxs : List Nat) (n : Nat)
    (hnd : idxs.Nodup) (hb : ∀ i ∈ idxs, i < n) : idxs.length ≤ n := by
  have h := List.subperm_of_subset hnd (fun x hx => List.mem_range.mpr (hb x hx))
  simpa using h.length_le

theorem removeLine_eq_clearLines (i : Nat) (ids : List Nat) (st : LogList)
    (h : i < st.list.length) : removeLine i ids st = clearLines ids st := by
  have hx : st.list[i]? = some st.list[i] := List.getElem?_eq_getElem h
  simp only [removeLine, hx]

theorem bumpFrom_of_le (s : Nat) :
    ∀ (p : Nat) (ls : List LogLine), p + ls.length ≤ s → bumpFrom s p ls = ls
  | _, [], _ => rfl
  | p, l :: rest, h => by
      rw [bumpFrom, if_neg (by simp only [List.length_cons] at h; omega),
        bumpFrom_of_le s (p + 1) rest (by simp only [List.length_cons] at h; omega)]

theorem sanitize_data (s : String) :
    (sanitize s).data = s.data.flatMap fun c => if c = '\n' then ['⏎', ' '] else [c] := rfl

theorem flatMap_sanitize_of_no_newline :
    ∀ (cs : List Char), '\n' ∉ cs →
      (cs.flatMap fun c => if c = '\n' then ['⏎', ' '] else [c]) = cs
  | [], _ => rfl
  | c :: cs, h => by
      rw [List.flatMap_cons,
        if_neg (fun hc => h (by rw [← hc]; exact List.mem_cons_self c cs)),
        flatMap_sanitize_of_no_newline cs (fun hc => h (List.mem_cons_of_mem c hc))]
      rfl

theorem sanitize_no_newline (s : String) : '\n' ∉ (sanitize s).data := by
  rw [sanitize_data]
  intro hmem
  rcases List.mem_flatMap.mp hmem with ⟨a, _, hmem2⟩
  by_cases hc : a = '\n'
  · rw [if_pos hc] at hmem2
    have h2 : ('\n' = '⏎') ∨ ('\n' = ' ') := by simpa using hmem2
    rcases h2 with h2 | h2 <;> exact absurd h2 (by decide)
  · rw [if_neg hc] at hmem2
    have h2 : '\n' = a := by simpa using hmem2
    exact hc h2.symm

theorem sanitize_id (s : String) (h : '\n' ∉ s.data) : sanitize s = s := by
  have hd : (sanitize s).data = s.data := by
    rw [sanitize_data, flatMap_sanitize_of_no_newline s.data h]
  cases s with
  | mk data => exact congrArg String.mk hd

theorem runThrottle_slide {σ : Type} (W t0 : Nat) :
    ∀ (cs : List (Nat × σ)) (t : Nat) (s : σ), t0 ≤ t →
      (∀ u ∈ cs.map Prod.fst, t0 ≤ u ∧ u < t0 + W) →
      runThrottle W cs (some (t + W, s))
        = [((((t, s) :: cs).getLast (List.cons_ne_nil _ _)).1 + W,
            (((t, s) :: cs).getLast (List.cons_ne_nil _ _)).2)]
  | [], t, s, _, _ => rfl
  | (u, v) :: cs, t, s, ht, hinv => by
      have hu := hinv u (by simp)
      have hcond : ¬ (t + W ≤ u) := by omega
      simp only [runThrottle, if_neg hcond]
      rw [runThrottle_slide W t0 cs u v (by omega)
        (fun w hw => hinv w (by simp [hw]))]
      rw [List.getLast_cons (List.cons_ne_nil _ _)]

theorem le_getLast_of_sorted :
    ∀ (l : List Nat) (h : l ≠ []), l.Pairwise (· ≤ ·) → ∀ u ∈ l, u ≤ l.getLast h
  | [], h, _, _, _ => absurd rfl h
  | [a], _, _, u, hu => by
      have : u = a := by simpa using hu
      subst this
      simp
  | a :: b :: l, _, hpw, u, hu => by
      rw [List.getLast_cons (List.cons_ne_nil _ _)]
      rcases List.mem_cons.mp hu with rfl | hu2
      · exact (List.pairwise_cons.mp hpw).1 _ (List.getLast_mem _)
      · exact le_getLast_of_sorted (b :: l) (List.cons_ne_nil _ _)
          (List.pairwise_cons.mp hpw).2 u hu2

/-- C1: for every buffer satisfying the index invariant, each documented
mutation — `pushLine`, `insertAfter` with a currently existing index,
`removeLine`, `clearLines`, `clearScreen`, `reIndex` — yields a buffer
in which `list[i].index = i` for every `i` in `[0, length)`: the indices
are contiguous integers starting at 0 with no gaps or duplicates. -/
theorem C1_mutations_preserve_index_invariant (m : Mutation) (st : LogList)
    (hwf : WF st) (hv : validMutation m st) : WF (applyMutation m st) := by
  cases m with
  | pushL l d => exact pushLine_wf l d st hwf
  | insertA l k => exact insertAfter_wf l k st hv hwf
  | removeL i ids => exact removeLine_wf i ids st hwf
  | clearL ids => exact clearLines_wf ids st hwf
  | clearScr => exact clearScreen_wf st
  | reIdx s => exact reIndex_wf s st hwf

/-- Witness for C1 at a concrete buffer and mutation. -/
theorem C1_witness :
    WF (applyMutation (.insertA ⟨0, "X", false⟩ 0)
      ⟨[⟨0, "A", false⟩], ["A"], none, none⟩) :=
  C1_mutations_preserve_index_invariant _ _ (by decide) (show (0 : Nat) < 1 by decide)

/-- C2: on a buffer of length N satisfying the index invariant (with its
surface in sync), `insertAfter(line, k)` with an existing index `k`
yields length N+1, places the line at position k+1 with
`line.index = k+1`, leaves entries at positions up to `k` unchanged,
shifts every entry previously at a position above `k` one place up with
its stored index raised by exactly 1, and writes the new sanitized row
into the surface at position k+1. -/
theorem C2_insertAfter_valid (st : LogList) (X : LogLine) (k : Nat)
    (hwf : WF st) (hk : k < st.list.length)
    (hrows : st.boxRows.length = st.list.length) :
    (insertAfter X k st).list.length = st.list.length + 1
    ∧ (insertAfter X k st).list[k + 1]? = some { X with index := k + 1 }
    ∧ (∀ p, p ≤ k → (insertAfter X k st).list[p]? = st.list[p]?)
    ∧ (∀ p, k < p → p < st.list.length →
        (insertAfter X k st).list[p + 1]?
          = st.list[p]?.map fun l => { l with index := l.index + 1 })
    ∧ (insertAfter X k st).boxRows.length = st.boxRows.length + 1
    ∧ (insertAfter X k st).boxRows[k + 1]? = some (sanitize X.content) := by
  refine ⟨insertAfter_length X k st hk, ?_, ?_, ?_, ?_, ?_⟩
  · rw [insertAfter_getElem? X k st hk (k + 1), if_neg (by omega), if_pos rfl]
  · intro p hp
    rw [insertAfter_getElem? X k st hk p, if_pos (by omega)]
  · intro p hp1 hp2
    rw [insertAfter_getElem? X k st hk (p + 1), if_neg (by omega), if_neg (by omega)]
    rfl
  · rw [insertAfter_boxRows, length_boxInsertLine _ _ _ (by omega)]
  · rw [insertAfter_boxRows, getElem?_boxInsertLine_self _ _ _ (by omega)]

/-- Witness for C2: inserting X after index 0 of the two-line buffer
[A, B] places X at position 1 with index 1. -/
theorem C2_witness :
    (insertAfter ⟨0, "X", false⟩ 0
        ⟨[⟨0, "A", false⟩, ⟨1, "B", false⟩], ["A", "B"], none, none⟩).list[1]?
      = some ⟨1, "X", false⟩ :=
  (C2_insertAfter_valid ⟨[⟨0, "A", false⟩, ⟨1, "B", false⟩], ["A", "B"], none, none⟩
    ⟨0, "X", false⟩ 0 (by decide) (by decide) (by decide)).2.1

/-- C3: on a buffer satisfying the index invariant, `removeLine(i)` for a
line whose subtree traversal yields the distinct in-range absolute
indices `idxs` (the line and its C descendants, so `idxs.length = C + 1`)
removes exactly those entries — the survivors, in order, are the entries
whose position is not in `idxs` — processes the indices in descending
order, and reindexes from the minimum removed index so the survivors are
contiguously indexed with no gaps; entries below every removed index are
untouched. -/
theorem C3_removeLine_with_children (st : LogList) (idxs : List Nat) (i : Nat)
    (hwf : WF st) (hnd : idxs.Nodup) (hb : ∀ j ∈ idxs, j < st.list.length)
    (hi : i ∈ idxs) (hlt : i < st.list.length) :
    (removeLine i idxs st).list.length + idxs.length = st.list.length
    ∧ WF (removeLine i idxs st)
    ∧ (removeLine i idxs st).list.map (fun l => l.content)
        = (st.list.enum.filter fun q => decide (q.1 ∉ idxs)).map (fun q => q.2.content)
    ∧ (∀ p, (∀ j ∈ idxs, p < j) → (removeLine i idxs st).list[p]? = st.list[p]?) := by
  have hperm : List.Perm (idxs.insertionSort (· ≤ ·)) idxs :=
    List.perm_insertionSort (· ≤ ·) idxs
  have hsorted : List.Sorted (· ≤ ·) (idxs.insertionSort (· ≤ ·)) :=
    List.sorted_insertionSort (· ≤ ·) idxs
  have hsortnd : (idxs.insertionSort (· ≤ ·)).Nodup := hperm.nodup_iff.mpr hnd
  have hsortlt : List.Sorted (· < ·) (idxs.insertionSort (· ≤ ·)) :=
    hsorted.lt_of_le hsortnd
  have hrevgt : List.Pairwise (· > ·) (idxs.insertionSort (· ≤ ·)).reverse :=
    List.pairwise_reverse.mpr hsortlt
  have hrevb : ∀ d ∈ (idxs.insertionSort (· ≤ ·)).reverse, d < st.list.length := by
    intro d hd
    exact hb d (hperm.mem_iff.mp (List.mem_reverse.mp hd))
  have hlen : idxs.length ≤ st.list.length := length_le_of_nodup_bounded idxs _ hnd hb
  have hrm : removeLine i idxs st = clearLines idxs st :=
    removeLine_eq_clearLines i idxs st hlt
  have h2 : WF (removeLine i idxs st) := by
    rw [hrm]; exact clearLines_wf idxs st hwf
  rcases hs : idxs.insertionSort (· ≤ ·) with _ | ⟨m, t⟩
  · exact absurd (hperm.mem_iff.mpr hi) (by rw [hs]; simp)
  · rw [hs] at hrevgt hrevb hperm hsorted
    have hmem_m : m ∈ idxs := hperm.mem_iff.mp (List.mem_cons_self m t)
    have hminrev : ∀ e ∈ (m :: t).reverse, m ≤ e := by
      intro e he
      exact sorted_head_le m t hsorted e (List.mem_reverse.mp he)
    have hcl : clearLines idxs st
        = reIndex (some m)
            { st with list := (m :: t).reverse.foldl List.eraseIdx st.list,
                      boxRows := (m :: t).reverse.foldl List.eraseIdx st.boxRows } := by
      rw [clearLines_eq, hs, deleteLinesLoop_eq, List.head?_cons]
    have hdlist : ((m :: t).reverse.foldl List.eraseIdx st.list)
        = survivorsFrom (m :: t).reverse 0 st.list :=
      foldl_eraseIdx_survivors (m :: t).reverse st.list hrevgt hrevb
    have hdlen : ((m :: t).reverse.foldl List.eraseIdx st.list).length
        = st.list.length - (m :: t).length := by
      rw [length_foldl_eraseIdx (m :: t).reverse st.list hrevgt hrevb, List.length_reverse]
    have hlencount : (m :: t).length = idxs.length := hperm.length_eq
    refine ⟨?_, h2, ?_, ?_⟩
    · rw [hrm, hcl, reIndex_some_list]
      simp only [length_reIndexFrom]
      omega
    · rw [hrm, hcl, reIndex_some_list]
      simp only [map_content_reIndexFrom]
      rw [hdlist, survivorsFrom_enumFrom, List.map_map]
      have hfc : ∀ q ∈ st.list.enumFrom 0,
          (decide (q.1 ∉ (m :: t).reverse) : Bool) = decide (q.1 ∉ idxs) := by
        intro q _
        have hiff : (q.1 ∈ (m :: t).reverse) ↔ (q.1 ∈ idxs) :=
          List.mem_reverse.trans hperm.mem_iff
        exact decide_eq_decide.mpr (not_congr hiff)
      rw [List.filter_congr hfc]
      rfl
    · intro p hp
      have hpm : p < m := hp m hmem_m
      rw [hrm, hcl, reIndex_some_list, getElem?_reIndexFrom]
      show ((m :: t).reverse.foldl List.eraseIdx st.list)[p]?.map _ = _
      rw [getElem?_foldl_eraseIdx m _ st.list hminrev p hpm]
      rcases hx : st.list[p]? with _ | x
      · rfl
      · simp only [Option.map_some']
        rw [if_neg (by omega)]

/-- Witness for C3: removing line 1 (child: line 2) from [A, B, C]
removes exactly 2 entries and leaves a well-indexed buffer. -/
theorem C3_witness :
    (removeLine 1 [1, 2]
        ⟨[⟨0, "A", false⟩, ⟨1, "B", false⟩, ⟨2, "C", false⟩],
          ["A", "B", "C"], none, none⟩).list.length + 2 = 3
    ∧ WF (removeLine 1 [1, 2]
        ⟨[⟨0, "A", false⟩, ⟨1, "B", false⟩, ⟨2, "C", false⟩],
          ["A", "B", "C"], none, none⟩) := by
  have h := C3_removeLine_with_children
    ⟨[⟨0, "A", false⟩, ⟨1, "B", false⟩, ⟨2, "C", false⟩], ["A", "B", "C"], none, none⟩
    [1, 2] 1 (by decide) (by decide) (by decide) (by decide) (by decide)
  exact ⟨h.1, h.2.1⟩

/-- C4 counterexample: `insertAfter(X, 1)` on the one-line buffer [A]
(indices 0 only, so 1 does not exist) is not rejected: the call completes,
X ends up at position 1 but with stored index 2, silently misplaced, and
the index invariant is broken. -/
theorem C4_counterexample :
    (insertAfter ⟨0, "X", false⟩ 1 ⟨[⟨0, "A", false⟩], ["A"], none, none⟩).list
        = [⟨0, "A", false⟩, ⟨2, "X", false⟩]
    ∧ ¬ WF (insertAfter ⟨0, "X", false⟩ 1 ⟨[⟨0, "A", false⟩], ["A"], none, none⟩) := by
  decide

/-- C4 (amended): `insertAfter` performs no validation of `afterIndex`.
At the smallest non-existent index, `afterIndex = length`, the call
completes anyway: the line is appended at position `length` but assigned
index `length + 1`, so it is silently misplaced and the index invariant
breaks — there is no fail-fast rejection. -/
theorem C4_insertAfter_no_validation (line : LogLine) (st : LogList) :
    (insertAfter line st.list.length st).list
        = st.list ++ [{ line with index := st.list.length + 1 }]
    ∧ ¬ WF (insertAfter line st.list.length st) := by
  have hshape : (insertAfter line st.list.length st).list
      = st.list ++ [{ line with index := st.list.length + 1 }] := by
    rw [insertAfter_list, List.take_of_length_le (by omega),
      List.drop_eq_nil_of_le (by omega),
      bumpFrom_of_le _ 0 _ (by simp only [Nat.zero_add, List.length_append,
        List.length_cons, List.length_nil]; omega)]
  refine ⟨hshape, fun hwf => ?_⟩
  rw [wf_iff] at hwf
  have hx : (insertAfter line st.list.length st).list[st.list.length]?
      = some { line with index := st.list.length + 1 } := by
    rw [hshape, List.getElem?_append_right (Nat.le_refl _), Nat.sub_self,
      List.getElem?_cons_zero]
  have hix := hwf _ _ hx
  simp only at hix
  omega

/-- C5 (code bug evidence): `clearScreen` on a buffer with a selected
line empties the collection and clears the surface, but the selected
line keeps `selected = true` and the selection reference survives — the
guard reads `list.selectedLine`, a property nothing ever assigns,
instead of the LogList's own `selectedLine`. -/
theorem C5_clearScreen_keeps_selection :
    (clearScreen ⟨[⟨0, "A", true⟩], ["A"], some ⟨0, "A", true⟩, none⟩).list = []
    ∧ (clearScreen ⟨[⟨0, "A", true⟩], ["A"], some ⟨0, "A", true⟩, none⟩).boxRows = []
    ∧ (clearScreen ⟨[⟨0, "A", true⟩], ["A"], some ⟨0, "A", true⟩, none⟩).selectedLine
        = some ⟨0, "A", true⟩
    ∧ (⟨0, "A", true⟩ : LogLine).selected = true := by
  decide

/-- C6 (code bug evidence): with a scrollable box at the top edge
(position 0 of 5), `scroll(-2)` reads percentage 0 before and after the
clamped move and then issues the opposite scroll, which moves the
viewport down to position 2 instead of restoring position 0. -/
theorem C6_scroll_top_edge_not_restored :
    scroll (some (-2)) ⟨0, 5⟩ = ⟨2, 5⟩
    ∧ (scroll (some (-2)) ⟨0, 5⟩).pos ≠ (⟨0, 5⟩ : ScrollBox).pos := by
  have h : scroll (some (-2)) ⟨0, 5⟩ = ⟨2, 5⟩ := by
    norm_num [scroll, getScrollPerc, boxScroll]
    rfl
  exact ⟨h, by rw [h]; decide⟩

/-- C7: any burst of `render()` requests arriving in time order within
one throttle window of the first request collapses into exactly one
redraw, fired at the trailing edge `W` after the last request — hence
after every request of the burst — and carrying the state of the last
request; no other redraw occurs for the burst. -/
theorem C7_render_throttle_coalesces {σ : Type} (W : Nat) (hW : 0 < W)
    (c : Nat × σ) (cs : List (Nat × σ))
    (hsort : ((c :: cs).map Prod.fst).Pairwise (· ≤ ·))
    (hwin : ∀ u ∈ (c :: cs).map Prod.fst, u < c.1 + W) :
    runThrottle W (c :: cs) none
        = [(((c :: cs).getLast (List.cons_ne_nil _ _)).1 + W,
            ((c :: cs).getLast (List.cons_ne_nil _ _)).2)]
    ∧ (∀ u ∈ (c :: cs).map Prod.fst,
        u < ((c :: cs).getLast (List.cons_ne_nil _ _)).1 + W) := by
  obtain ⟨t, s⟩ := c
  simp only [List.map_cons, List.pairwise_cons] at hsort
  constructor
  · show runThrottle W ((t, s) :: cs) none = _
    have hstep : runThrottle W ((t, s) :: cs) none
        = runThrottle W cs (some (t + W, s)) := rfl
    rw [hstep]
    exact runThrottle_slide W t cs t s (Nat.le_refl t) (fun u hu =>
      ⟨hsort.1 u hu, by simpa using hwin u (by simp [hu])⟩)
  · intro u hu
    have hle : u ≤ (((t, s) :: cs).map Prod.fst).getLast (by simp) := by
      refine le_getLast_of_sorted _ (by simp) ?_ u hu
      simp only [List.map_cons, List.pairwise_cons]
      exact hsort
    have hlast : (((t, s) :: cs).map Prod.fst).getLast (by simp)
        = (((t, s) :: cs).getLast (List.cons_ne_nil _ _)).1 := by
      rw [List.getLast_map]
    omega

/-- Witness for C7: three calls at times 0, 10 and 69 inside one 70ms
window produce exactly one redraw, at time 139 with the last state. -/
theorem C7_witness :
    runThrottle 70 [(0, (0 : Nat)), (10, 1), (69, 2)] none = [(139, 2)]
    ∧ (∀ u ∈ [(0, (0 : Nat)), (10, 1), (69, 2)].map Prod.fst, u < 139) := by
  have h := C7_render_throttle_coalesces 70 (by decide) (0, (0 : Nat))
    [(10, 1), (69, 2)] (by decide) (by decide)
  exact ⟨h.1, h.2⟩

/-- C8 counterexample: the claim that each embedded line break is
replaced by a single visible marker character fails: the replacement is
the marker followed by a space, so `sanitize "a\n b"`-style inputs gain
a character: `sanitize "a\nb"` is "a⏎ b", not "a⏎b". -/
theorem C8_counterexample :
    sanitize "a\nb" = "a⏎ b" ∧ sanitize "a\nb" ≠ "a⏎b" := by
  decide

/-- C8 (amended): `sanitize` is the identity on strings with no embedded
line break; its output never contains a literal line break; and each
embedded line break is replaced by the visible marker character followed
by a space. -/
theorem C8_sanitize_spec (s : String) :
    ('\n' ∉ (sanitize s).data)
    ∧ ('\n' ∉ s.data → sanitize s = s)
    ∧ (sanitize s).data
        = (s.data.flatMap fun c => if c = '\n' then ['⏎', ' '] else [c]) :=
  ⟨sanitize_no_newline s, sanitize_id s, sanitize_data s⟩

/-- Witness for C8 on the break-free string "ab". -/
theorem C8_witness : '\n' ∉ (sanitize "ab").data ∧ sanitize "ab" = "ab" :=
  ⟨(C8_sanitize_spec "ab").1, (C8_sanitize_spec "ab").2.1 (by decide)⟩

/-- C9: caller-line parsing is total — every input string yields a
structured record, with no fault — and follows the documented fallback
order: the strict pattern first; otherwise the loose `file:line:column`
pattern with the name forced to "anonymous"; otherwise the placeholder
record ("anonymous" name, "unknown" location fields). -/
theorem C9_extractLineInfo_fallback (s : String) :
    (∃ g1 g2 d1 d2, matchStrict (cleanLine s.data) = some (g1, g2, d1, d2)
        ∧ extractLineInfo s
            = { name := ⟨g1⟩, path := ⟨g2⟩, file := jsSplitPop ⟨g2⟩,
                line := ⟨d1⟩, char := ⟨d2⟩ })
    ∨ (matchStrict (cleanLine s.data) = none
        ∧ ∃ g d1 d2, matchLoose (cleanLine s.data) = some (g, d1, d2)
            ∧ extractLineInfo s
                = { name := "anonymous", path := ⟨g⟩, file := jsSplitPop ⟨g⟩,
                    line := ⟨d1⟩, char := ⟨d2⟩ })
    ∨ (matchStrict (cleanLine s.data) = none ∧ matchLoose (cleanLine s.data) = none
        ∧ extractLineInfo s
            = { name := "anonymous", path := "unknown", file := "unknown",
                line := "unknown", char := "unknown" }) := by
  rcases hS : matchStrict (cleanLine s.data) with _ | ⟨g1, g2, d1, d2⟩
  · rcases hL : matchLoose (cleanLine s.data) with _ | ⟨g, d1, d2⟩
    · right; right
      exact ⟨rfl, rfl, by simp only [extractLineInfo, hS, hL]⟩
    · right; left
      exact ⟨rfl, g, d1, d2, rfl, by simp only [extractLineInfo, hS, hL]⟩
  · left
    exact ⟨g1, g2, d1, d2, rfl, by simp only [extractLineInfo, hS]⟩

/-- C10: `clearLines([])` on a buffer satisfying the index invariant is a
complete no-op: no entry is removed, every index is unchanged, and no
surface row is deleted — the state is exactly the input state. -/
theorem C10_clearLines_empty (st : LogList) (hwf : WF st) :
    clearLines [] st = st :=
  clearLines_nil st hwf

/-- Witness for C10 on a concrete one-line buffer. -/
theorem C10_witness :
    clearLines [] ⟨[⟨0, "A", false⟩], ["A"], none, none⟩
      = ⟨[⟨0, "A", false⟩], ["A"], none, none⟩ :=
  C10_clearLines_empty _ (by decide)
